import Mathlib

/-!
Verification of the `IntervalDS` day-to-second interval type
(`src/types/interval_ds.rs`): its construction paths, precision metadata,
equality, textual encoder (`impl fmt::Display`) and textual decoder
(`impl str::FromStr`).

Machine integers are embedded as unbounded `Int`/`Nat` with explicit
two's-complement reduction (`wrap32`, `% 256`) exactly where the Rust code
performs an `as` cast or can wrap in release builds.
-/

namespace IntervalSpec

/-- Two's-complement reduction of an integer into the `i32` range
`[-2^31, 2^31)`.  This is the semantics of Rust `as i32` casts and of
wrapping `i32` arithmetic. -/
def wrap32 (x : Int) : Int := (x + 2147483648) % 4294967296 - 2147483648

/-- Rust `u64 as i32` (or any unsigned-to-`i32` cast of a parsed digit
value): reduce modulo `2^32` and reinterpret as two's complement. -/
def i32ofNat (n : Nat) : Int := wrap32 n

/-- Rust `i32::abs` with release (wrapping) overflow semantics: the absolute
value, except that `(-2^31).abs()` wraps back to `-2^31`. -/
def i32abs (x : Int) : Int := if x < 0 then wrap32 (-x) else x

/-- Numeric value of an ASCII digit character. -/
def digitVal (c : Char) : Nat := c.toNat - 48

/-- Value of a run of ASCII digits, most significant first (the
accumulation a digit scanner performs). -/
def digitsVal (l : List Char) : Nat := l.foldl (fun a c => a * 10 + digitVal c) 0

/-- Modelled from the spec: `read_digits` of the Digit Scanner
(`util.rs`, not part of this source tree).  Consumes the maximal contiguous
run of ASCII decimal digits at the head of the input and returns its parsed
non-negative integer value, the count of digits consumed, and the remaining
input; returns `none` when the run is empty. -/
def readDigits (s : List Char) : Option (Nat × Nat × List Char) :=
  let ds := s.takeWhile Char.isDigit
  if ds.length = 0 then none
  else some (digitsVal ds, ds.length, s.dropWhile Char.isDigit)

/-- The source's `if let Some(c) = s.char() { s.next(); } else { return Err }`
pattern: require the next character to be `c` and consume it. -/
def expectChar (c : Char) (s : List Char) : Option (List Char) :=
  match s with
  | c' :: rest => if c' = c then some rest else none
  | [] => none

/-- The `IntervalDS` struct: five signed 32-bit components plus two `u8`
precision fields (`lfprec` = leading field precision, `fsprec` = fractional
second precision). -/
structure IntervalDS where
  days : Int
  hours : Int
  minutes : Int
  seconds : Int
  nanoseconds : Int
  lfprec : Nat
  fsprec : Nat
deriving DecidableEq, Repr

/-- `IntervalDS::new`: stores the components verbatim and sets both
precisions to 9. -/
def IntervalDS.new (days hours minutes seconds nanoseconds : Int) : IntervalDS :=
  { days := days, hours := hours, minutes := minutes, seconds := seconds,
    nanoseconds := nanoseconds, lfprec := 9, fsprec := 9 }

/-- `IntervalDS::and_prec`: a copy with the components unchanged and the two
precision fields replaced. -/
def IntervalDS.and_prec (self : IntervalDS) (lfprec fsprec : Nat) : IntervalDS :=
  { self with lfprec := lfprec, fsprec := fsprec }

/-- `impl PartialEq for IntervalDS`: equality of the five components; the
precision fields do not participate. -/
def IntervalDS.eqv (self other : IntervalDS) : Bool :=
  self.days == other.days
    && self.hours == other.hours
    && self.minutes == other.minutes
    && self.seconds == other.seconds
    && self.nanoseconds == other.nanoseconds

/-- The external client runtime's pre-parsed binary interval record
(`dpiIntervalDS`): five signed 32-bit integer fields. -/
structure dpiIntervalDS where
  days : Int
  hours : Int
  minutes : Int
  seconds : Int
  fseconds : Int

/-- Modelled from the spec: the type descriptor (`OracleType`, defined
outside this source tree).  Only the distinction between the
interval-day-to-second tag, which carries a precision pair, and every other
tag matters to this core, so all other variants are collapsed into one. -/
inductive OracleType where
  | IntervalDS (lfprec fsprec : Nat)
  | otherType

/-- `IntervalDS::from_dpi_interval_ds`: components copied verbatim from the
record; precisions from the descriptor when it is the interval tag, `(0,0)`
otherwise. -/
def IntervalDS.from_dpi_interval_ds (it : dpiIntervalDS) (oratype : OracleType) : IntervalDS :=
  let p := match oratype with
    | OracleType.IntervalDS lfprec fsprec => (lfprec, fsprec)
    | _ => (0, 0)
  { days := it.days, hours := it.hours, minutes := it.minutes,
    seconds := it.seconds, nanoseconds := it.fseconds,
    lfprec := p.1, fsprec := p.2 }

/-- The ASCII character of a decimal digit. -/
def digitChar (n : Nat) : Char :=
  match n with
  | 0 => '0' | 1 => '1' | 2 => '2' | 3 => '3' | 4 => '4'
  | 5 => '5' | 6 => '6' | 7 => '7' | 8 => '8' | _ => '9'

/-- Decimal digits of a natural number, most significant first, by fuelled
division (the fuel `n + 1` always suffices). -/
def natDigitsAux : Nat → Nat → List Char
  | 0, _ => []
  | fuel + 1, n =>
    if n < 10 then [digitChar n]
    else natDigitsAux fuel (n / 10) ++ [digitChar (n % 10)]

/-- Decimal digits of a natural number, most significant first, no leading
zeros (except `0 ↦ "0"`). -/
def natDigits (n : Nat) : List Char := natDigitsAux (n + 1) n

/-- Zero-pad a digit list on the left to width `w`. -/
def padLeft (w : Nat) (l : List Char) : List Char :=
  List.replicate (w - l.length) '0' ++ l

/-- Rust's `{:0w}` integer formatting of an `i32` value: minimum total width
`w`, zero-padded after the sign; `w = 0` is the plain `{}` formatting. -/
def fmtI32 (w : Nat) (x : Int) : List Char :=
  if x < 0 then '-' :: padLeft (w - 1) (natDigits (-x).toNat)
  else padLeft w (natDigits x.toNat)

/-- The day-field match of `impl fmt::Display`: the nine enumerated pad
widths `2..9`, every other `lfprec` rendering unpadded. -/
def dayField (lfprec : Nat) (days : Int) : List Char :=
  match lfprec with
  | 2 => fmtI32 2 days
  | 3 => fmtI32 3 days
  | 4 => fmtI32 4 days
  | 5 => fmtI32 5 days
  | 6 => fmtI32 6 days
  | 7 => fmtI32 7 days
  | 8 => fmtI32 8 days
  | 9 => fmtI32 9 days
  | _ => fmtI32 0 days

/-- The fractional-part match of `impl fmt::Display`: the nine enumerated
scale divisors, every other `fsprec` rendering nothing. -/
def fracField (fsprec : Nat) (nsec : Int) : List Char :=
  match fsprec with
  | 1 => '.' :: fmtI32 1 (nsec.tdiv 100000000)
  | 2 => '.' :: fmtI32 2 (nsec.tdiv 10000000)
  | 3 => '.' :: fmtI32 3 (nsec.tdiv 1000000)
  | 4 => '.' :: fmtI32 4 (nsec.tdiv 100000)
  | 5 => '.' :: fmtI32 5 (nsec.tdiv 10000)
  | 6 => '.' :: fmtI32 6 (nsec.tdiv 1000)
  | 7 => '.' :: fmtI32 7 (nsec.tdiv 100)
  | 8 => '.' :: fmtI32 8 (nsec.tdiv 10)
  | 9 => '.' :: fmtI32 9 nsec
  | _ => []

/-- `impl fmt::Display for IntervalDS` (the Textual Encoder): sign, day
field padded per `lfprec`, ` hh:mm:ss`, and a fractional part per
`fsprec`.  Total: it only ever writes to the formatter, never errors. -/
def IntervalDS.encode (self : IntervalDS) : List Char :=
  (if self.days < 0 ∨ self.hours < 0 ∨ self.minutes < 0 ∨ self.seconds < 0
      ∨ self.nanoseconds < 0
   then ['-'] else ['+'])
  ++ dayField self.lfprec (i32abs self.days)
  ++ [' '] ++ fmtI32 2 (i32abs self.hours)
  ++ [':'] ++ fmtI32 2 (i32abs self.minutes)
  ++ [':'] ++ fmtI32 2 (i32abs self.seconds)
  ++ fracField self.fsprec (i32abs self.nanoseconds)

/-- Modelled from the spec: the uniform malformed-literal error
(`ParseOracleTypeError`, defined outside this source tree) carries only the
name of the target type being parsed. -/
structure ParseOracleTypeError where
  typename : String
deriving DecidableEq, Repr

/-- Negate a parsed component when the literal had a leading `-`
(Rust unary `-` on `i32`, wrapping at `-2^31`). -/
def appSign (minus : Bool) (x : Int) : Int := if minus then wrap32 (-x) else x

/-- The optional leading sign of a literal: whether a `-` was seen, and the
input after the sign. -/
def dropSign (s : List Char) : Bool × List Char :=
  match s with
  | '+' :: rest => (false, rest)
  | '-' :: rest => (true, rest)
  | s => (false, s)

/-- Outcome of a decoding step: a Rust panic, modelled as a distinct
outcome rather than as a value, or a normal result. -/
inductive PanicOr (α : Type) where
  | panicked
  | value (a : α)
deriving DecidableEq

/-- The decoder's effect: a step may panic, fail the parse (the uniform
error, modelled as `value none`), or produce a result. -/
abbrev PM (α : Type) : Type := PanicOr (Option α)

instance : Monad PM where
  pure a := PanicOr.value (some a)
  bind x f :=
    match x with
    | PanicOr.panicked => PanicOr.panicked
    | PanicOr.value none => PanicOr.value none
    | PanicOr.value (some a) => f a

/-- Lift a fallible but panic-free step into the decoder effect. -/
def liftOpt {α : Type} (o : Option α) : PM α := PanicOr.value o

/-- The fraction block of `from_str` (the `if let Some('.') = s.char()`
body): with no leading `.` it leaves `nsecs = 0`, `fsprec = 0`; otherwise it
reads the fraction's digit run and normalizes it to nanosecond units.
`10i32.pow` is embedded with wrapping (release) semantics via `wrap32`; for
a run of more than 40 digits that wrapped power is 0 and the source's
`nsecs /= 10i32.pow(ndigit - 9)` is a division by zero, which panics in
every build profile, so that path is `PanicOr.panicked`. -/
def readFraction (s : List Char) : PM (Int × Nat × List Char) :=
  match s with
  | '.' :: rest => do
    let (fracN, ndigit, rest) ← liftOpt (readDigits rest)
    let nsecs := i32ofNat fracN
    if ndigit < 9 then
      pure (wrap32 (nsecs * (10 : Int) ^ (9 - ndigit)), ndigit, rest)
    else if ndigit > 9 then
      if wrap32 ((10 : Int) ^ (ndigit - 9)) = 0 then PanicOr.panicked
      else pure (nsecs.tdiv (wrap32 ((10 : Int) ^ (ndigit - 9))), 9, rest)
    else
      pure (nsecs, ndigit, rest)
  | s => pure ((0 : Int), 0, s)

/-- The body of `impl str::FromStr for IntervalDS`, with the single uniform
error value factored out (the source constructs the same
`ParseOracleTypeError::new("IntervalDS")` at every failure site, so failure
is modelled as `value none`, and the fraction block's panic as
`panicked`). -/
def fromStrO (s : List Char) : PM IntervalDS := do
  let (minus, s) := dropSign s
  let (daysN, lfprec, s) ← liftOpt (readDigits s)
  let days := i32ofNat daysN
  let s ← liftOpt (expectChar ' ' s)
  let (hoursN, _, s) ← liftOpt (readDigits s)
  let hours := i32ofNat hoursN
  let s ← liftOpt (expectChar ':' s)
  let (minutesN, _, s) ← liftOpt (readDigits s)
  let minutes := i32ofNat minutesN
  let s ← liftOpt (expectChar ':' s)
  let (secondsN, _, s) ← liftOpt (readDigits s)
  let seconds := i32ofNat secondsN
  let (nsecs, fsprec, s) ← readFraction s
  if s ≠ [] then liftOpt none
  else
    pure { days := appSign minus days, hours := appSign minus hours,
           minutes := appSign minus minutes, seconds := appSign minus seconds,
           nanoseconds := appSign minus nsecs,
           lfprec := lfprec % 256, fsprec := fsprec % 256 }

/-- `impl str::FromStr for IntervalDS` (the Textual Decoder): every failure
site returns the same `ParseOracleTypeError::new("IntervalDS")`.  The `Some`
wrapper models normal termination: `none` is the panic of the fraction
block's division by zero, on which the source function returns nothing at
all. -/
def IntervalDS.fromStr (s : List Char) : Option (Except ParseOracleTypeError IntervalDS) :=
  match fromStrO s with
  | PanicOr.panicked => none
  | PanicOr.value none => some (Except.error (ParseOracleTypeError.mk "IntervalDS"))
  | PanicOr.value (some v) => some (Except.ok v)

/-- Whether the input does not start with an ASCII digit (so a maximal digit
run ends exactly there). -/
def noDigitHead (l : List Char) : Bool :=
  match l with
  | [] => true
  | c :: _ => !c.isDigit

/-- The effective padding width of the day field: the nine enumerated match
arms `2..9` of the encoder, every other precision falling to the unpadded
arm. -/
def dayW (l : Nat) : Nat := if 2 ≤ l ∧ l ≤ 9 then l else 0

/-- The fractional part of the encoder output, with the nine enumerated
divisors written as `10^(9-p)`. -/
def fracL (p : Nat) (nsec : Int) : List Char :=
  if 1 ≤ p ∧ p ≤ 9 then '.' :: fmtI32 p (nsec.tdiv ((10 : Int) ^ (9 - p)))
  else []

/-- The nanosecond value the decoder derives from a fraction whose parsed
value is `v` and whose digit count is `n`. -/
def fracNanos (v n : Nat) : Int :=
  if n < 9 then wrap32 (i32ofNat v * (10 : Int) ^ (9 - n))
  else if n > 9 then (i32ofNat v).tdiv (wrap32 ((10 : Int) ^ (n - 9)))
  else i32ofNat v

/-- The fractional second precision the decoder derives from a fraction of
`n` digits. -/
def fracPrec (n : Nat) : Nat := if n < 9 then n else 9

/-- The encoder's sign condition: some component is strictly negative. -/
def isNeg (v : IntervalDS) : Prop :=
  v.days < 0 ∨ v.hours < 0 ∨ v.minutes < 0 ∨ v.seconds < 0 ∨ v.nanoseconds < 0

instance (v : IntervalDS) : Decidable (isNeg v) := by unfold isNeg; infer_instance

/-- The component domains of §3 of the specification. -/
def inDomain (v : IntervalDS) : Prop :=
  -999999999 ≤ v.days ∧ v.days ≤ 999999999 ∧
  -23 ≤ v.hours ∧ v.hours ≤ 23 ∧
  -59 ≤ v.minutes ∧ v.minutes ≤ 59 ∧
  -59 ≤ v.seconds ∧ v.seconds ≤ 59 ∧
  -999999999 ≤ v.nanoseconds ∧ v.nanoseconds ≤ 999999999

instance (v : IntervalDS) : Decidable (inDomain v) := by unfold inDomain; infer_instance

/-- The sign-consistency caller contract of §3: every non-zero component has
the same sign. -/
def signConsistent (v : IntervalDS) : Prop :=
  (0 ≤ v.days ∧ 0 ≤ v.hours ∧ 0 ≤ v.minutes ∧ 0 ≤ v.seconds ∧ 0 ≤ v.nanoseconds)
  ∨ (v.days ≤ 0 ∧ v.hours ≤ 0 ∧ v.minutes ≤ 0 ∧ v.seconds ≤ 0 ∧ v.nanoseconds ≤ 0)

instance (v : IntervalDS) : Decidable (signConsistent v) := by
  unfold signConsistent; infer_instance

/-- The optional-fraction clause of the grammar of §4.4: an optional `.`
followed by a non-empty digit run. -/
def fracGrammar (s : List Char) : Option (List Char) :=
  match s with
  | '.' :: rest => do
    let (_, _, r) ← readDigits rest
    pure r
  | s => pure s

/-- The literal grammar of §4.4 of the specification, stated as a decision
procedure over the input:
`[sign] digits+ SP digits+ ':' digits+ ':' digits+ ['.' digits+] END`,
digit runs being maximal. -/
def specGrammar (s : List Char) : Bool :=
  (do
    let (_, s) := dropSign s
    let (_, _, s) ← readDigits s
    let s ← expectChar ' ' s
    let (_, _, s) ← readDigits s
    let s ← expectChar ':' s
    let (_, _, s) ← readDigits s
    let s ← expectChar ':' s
    let (_, _, s) ← readDigits s
    let s ← fracGrammar s
    if s = [] then some () else none : Option Unit).isSome

/-! ## Basic arithmetic lemmas -/

theorem wrap32_eq_self {x : Int} (h1 : -2147483648 ≤ x) (h2 : x < 2147483648) :
    wrap32 x = x := by
  unfold wrap32
  rw [Int.emod_eq_of_lt (by omega) (by omega)]
  omega

theorem i32ofNat_eq {n : Nat} (h : n < 2147483648) : i32ofNat n = n := by
  unfold i32ofNat
  exact wrap32_eq_self (by omega) (by omega)

theorem i32abs_eq {x : Int} (h : -2147483648 < x) : i32abs x = (x.natAbs : Int) := by
  unfold i32abs
  split
  · rw [wrap32_eq_self (by omega) (by omega)]; omega
  · omega

theorem appSign_zero (minus : Bool) : appSign minus 0 = 0 := by
  cases minus <;> simp [appSign, wrap32]

theorem tdiv_natCast (a b : Nat) : (a : Int).tdiv (b : Nat) = ((a / b : Nat) : Int) := rfl

/-! ## Digit characters -/

theorem digitChar_isDigit (n : Nat) : (digitChar n).isDigit = true := by
  unfold digitChar
  split <;> decide

theorem digitVal_digitChar {n : Nat} (h : n < 10) : digitVal (digitChar n) = n := by
  interval_cases n <;> decide

theorem digitVal_lt_ten {c : Char} (h : c.isDigit = true) : digitVal c < 10 := by
  unfold digitVal
  have h1 : 48 ≤ c.toNat ∧ c.toNat ≤ 57 := by
    simp only [Char.isDigit, decide_eq_true_eq, Bool.and_eq_true] at h
    obtain ⟨h1, h2⟩ := h
    constructor
    · exact h1
    · exact h2
  omega

/-! ## Digit-run values -/

theorem digitsVal_concat (l : List Char) (c : Char) :
    digitsVal (l ++ [c]) = digitsVal l * 10 + digitVal c := by
  unfold digitsVal
  rw [List.foldl_append]
  rfl

theorem digitsVal_singleton (c : Char) : digitsVal [c] = digitVal c := by
  unfold digitsVal
  simp [List.foldl]

theorem foldl_digits_zeros (k : Nat) :
    List.foldl (fun a c => a * 10 + digitVal c) 0 (List.replicate k '0') = 0 := by
  induction k with
  | zero => rfl
  | succ n ih =>
    rw [List.replicate_succ, List.foldl_cons]
    simpa using ih

theorem digitsVal_padLeft (w : Nat) (l : List Char) :
    digitsVal (padLeft w l) = digitsVal l := by
  unfold padLeft digitsVal
  rw [List.foldl_append, foldl_digits_zeros]

theorem digitsVal_lt {l : List Char} (h : ∀ c ∈ l, c.isDigit = true) :
    digitsVal l < 10 ^ l.length := by
  induction l using List.reverseRecOn with
  | nil => simp [digitsVal]
  | append_singleton l c ih =>
    rw [digitsVal_concat]
    have hc : digitVal c < 10 := digitVal_lt_ten (h c (by simp))
    have hl : digitsVal l < 10 ^ l.length := ih fun x hx => h x (by simp [hx])
    simp only [List.length_append, List.length_singleton, pow_succ]
    omega

/-! ## Scanner lemmas -/

theorem takeWhile_digits_append {l r : List Char} (h : ∀ c ∈ l, c.isDigit = true)
    (hr : noDigitHead r = true) :
    (l ++ r).takeWhile Char.isDigit = l ∧ (l ++ r).dropWhile Char.isDigit = r := by
  induction l with
  | nil =>
    simp only [List.nil_append]
    cases r with
    | nil => simp
    | cons c t =>
      simp only [noDigitHead, Bool.not_eq_true'] at hr
      simp [List.takeWhile, List.dropWhile, hr]
  | cons a l ih =>
    have ha : a.isDigit = true := h a (by simp)
    have ih2 := ih fun c hc => h c (by simp [hc])
    simp [List.takeWhile, List.dropWhile, ha, ih2.1, ih2.2]

theorem readDigits_append {ds rest : List Char} (h1 : ds ≠ [])
    (h2 : ∀ c ∈ ds, c.isDigit = true) (h3 : noDigitHead rest = true) :
    readDigits (ds ++ rest) = some (digitsVal ds, ds.length, rest) := by
  obtain ⟨ht, hd⟩ := takeWhile_digits_append h2 h3
  unfold readDigits
  rw [ht, hd, if_neg (by simpa using h1)]

theorem readDigits_all {ds : List Char} (h1 : ds ≠ [])
    (h2 : ∀ c ∈ ds, c.isDigit = true) :
    readDigits ds = some (digitsVal ds, ds.length, []) := by
  have := @readDigits_append ds [] h1 h2 rfl
  simpa using this

theorem readDigits_none {s : List Char} (h : noDigitHead s = true) :
    readDigits s = none := by
  unfold readDigits
  cases s with
  | nil => rfl
  | cons c t =>
    simp only [noDigitHead, Bool.not_eq_true'] at h
    simp [List.takeWhile, h]

theorem dropSign_cons {c : Char} (r : List Char) (h1 : c ≠ '+') (h2 : c ≠ '-') :
    dropSign (c :: r) = (false, c :: r) := by
  unfold dropSign
  split
  · next heq => injection heq with hc _; exact absurd hc h1
  · next heq => injection heq with hc _; exact absurd hc h2
  · rfl

/-! ## Decimal digit strings -/

theorem natDigitsAux_spec :
    ∀ fuel n : Nat, n < 10 ^ fuel → 1 ≤ fuel →
      (∀ c ∈ natDigitsAux fuel n, c.isDigit = true) ∧
      digitsVal (natDigitsAux fuel n) = n ∧
      1 ≤ (natDigitsAux fuel n).length ∧
      n < 10 ^ (natDigitsAux fuel n).length ∧
      ((natDigitsAux fuel n).length = 1 ∨
        10 ^ ((natDigitsAux fuel n).length - 1) ≤ n) := by
  intro fuel
  induction fuel with
  | zero => intro n _ hf; omega
  | succ f ih =>
    intro n hn _
    by_cases h10 : n < 10
    · simp only [natDigitsAux, if_pos h10]
      refine ⟨?_, ?_, by simp, by simpa using h10, Or.inl rfl⟩
      · intro c hc
        simp only [List.mem_singleton] at hc
        subst hc
        exact digitChar_isDigit n
      · rw [digitsVal_singleton, digitVal_digitChar h10]
    · have hf1 : 1 ≤ f := by
        rcases Nat.eq_zero_or_pos f with h | h
        · subst h; simp at hn; omega
        · exact h
      have hdiv : n / 10 < 10 ^ f := by
        rw [Nat.div_lt_iff_lt_mul (by norm_num)]
        calc n < 10 ^ (f + 1) := hn
        _ = 10 ^ f * 10 := by ring
      obtain ⟨iall, ival, ilen, iub, ilb⟩ := ih (n / 10) hdiv hf1
      simp only [natDigitsAux, if_neg h10]
      set l := natDigitsAux f (n / 10) with hl
      have hmod : n % 10 < 10 := Nat.mod_lt _ (by norm_num)
      refine ⟨?_, ?_, ?_, ?_, ?_⟩
      · intro c hc
        rcases List.mem_append.mp hc with h | h
        · exact iall c h
        · simp only [List.mem_singleton] at h
          subst h
          exact digitChar_isDigit _
      · rw [digitsVal_concat, ival, digitVal_digitChar hmod]
        omega
      · simp
      · have : n = 10 * (n / 10) + n % 10 := (Nat.div_add_mod n 10).symm ▸ by omega
        simp only [List.length_append, List.length_singleton, pow_succ]
        omega
      · right
        have hq : 10 ^ (l.length - 1) ≤ n / 10 := by
          rcases ilb with h | h
          · rw [h]
            have h0 : 1 ≤ n / 10 := Nat.one_le_div_iff (by norm_num) |>.mpr (by omega)
            simpa using h0
          · exact h
        have h1 : 10 ^ l.length ≤ 10 * (n / 10) := by
          have : 10 ^ l.length = 10 * 10 ^ (l.length - 1) := by
            rw [← pow_succ']
            congr 1
            omega
          rw [this]
          exact Nat.mul_le_mul_left 10 hq
        have h2 : 10 * (n / 10) ≤ n := by
          have := Nat.div_mul_le_self n 10
          omega
        simp only [List.length_append, List.length_singleton]
        calc 10 ^ (l.length + 1 - 1) = 10 ^ l.length := rfl
        _ ≤ 10 * (n / 10) := h1
        _ ≤ n := h2

theorem natDigits_spec (n : Nat) :
    (∀ c ∈ natDigits n, c.isDigit = true) ∧
    digitsVal (natDigits n) = n ∧
    1 ≤ (natDigits n).length ∧
    n < 10 ^ (natDigits n).length ∧
    ((natDigits n).length = 1 ∨ 10 ^ ((natDigits n).length - 1) ≤ n) := by
  have hlt : n < 10 ^ (n + 1) := by
    calc n < 10 ^ n := Nat.lt_pow_self (by norm_num) n
    _ ≤ 10 ^ (n + 1) := Nat.pow_le_pow_right (by norm_num) (by omega)
  exact natDigitsAux_spec (n + 1) n hlt (by omega)

theorem natDigits_length_le {n w : Nat} (hw : 1 ≤ w) (h : n < 10 ^ w) :
    (natDigits n).length ≤ w := by
  obtain ⟨-, -, hlen, -, hlb⟩ := natDigits_spec n
  by_contra hc
  push_neg at hc
  rcases hlb with h1 | h1
  · omega
  · have : 10 ^ w ≤ 10 ^ ((natDigits n).length - 1) :=
      Nat.pow_le_pow_right (by norm_num) (by omega)
    omega

theorem natDigits_ne_nil (n : Nat) : natDigits n ≠ [] := by
  obtain ⟨-, -, hlen, -, -⟩ := natDigits_spec n
  intro h
  rw [h] at hlen
  simp at hlen

/-! ## Padding lemmas -/

theorem padLeft_length (w : Nat) (l : List Char) :
    (padLeft w l).length = max w l.length := by
  simp [padLeft]
  omega

theorem padLeft_digits {l : List Char} (w : Nat) (h : ∀ c ∈ l, c.isDigit = true) :
    ∀ c ∈ padLeft w l, c.isDigit = true := by
  intro c hc
  rcases List.mem_append.mp hc with h1 | h1
  · rw [List.eq_of_mem_replicate h1]
    decide
  · exact h c h1

theorem padLeft_ne_nil {l : List Char} (w : Nat) (h : l ≠ []) : padLeft w l ≠ [] := by
  intro hc
  have := congrArg List.length hc
  rw [padLeft_length] at this
  simp at this
  exact h this.2

theorem padLeft_max (w : Nat) (l : List Char) :
    padLeft (max w l.length) l = padLeft w l := by
  unfold padLeft
  have : max w l.length - l.length = w - l.length := by omega
  rw [this]

theorem padLeft_zero (l : List Char) : padLeft 0 l = l := by
  simp [padLeft]

theorem padLeft_self (l : List Char) : padLeft l.length l = l := by
  simp [padLeft]

/-! ## Stepping the decoder through a canonical literal -/

theorem expectChar_cons_self (c : Char) (r : List Char) :
    expectChar c (c :: r) = some r := by
  simp [expectChar]

theorem readDigits_append_cons (c : Char) {ds r : List Char} (h1 : ds ≠ [])
    (h2 : ∀ x ∈ ds, x.isDigit = true) (h3 : c.isDigit = false) :
    readDigits (ds ++ c :: r) = some (digitsVal ds, ds.length, c :: r) :=
  readDigits_append h1 h2 (by simp [noDigitHead, h3])

theorem someBind {α β : Type} (a : α) (f : α → Option β) :
    (some a : Option α) >>= f = f a := rfl

theorem pmPure {α : Type} (a : α) : (pure a : PM α) = PanicOr.value (some a) := rfl

theorem pmSomeBind {α β : Type} (a : α) (f : α → PM β) :
    liftOpt (some a) >>= f = f a := rfl

theorem pmNoneBind {α β : Type} (f : α → PM β) :
    (liftOpt none : PM α) >>= f = PanicOr.value none := rfl

theorem pmPureBind {α β : Type} (a : α) (f : α → PM β) :
    (pure a : PM α) >>= f = f a := rfl

theorem pmValueBind {α β : Type} (a : α) (f : α → PM β) :
    @Bind.bind PM _ _ _ (PanicOr.value (some a)) f = f a := rfl

theorem pmValueNoneBind {α β : Type} (f : α → PM β) :
    @Bind.bind PM _ _ _ (PanicOr.value none) f = PanicOr.value none := rfl

theorem pmPanicBind {α β : Type} (f : α → PM β) :
    @Bind.bind PM _ _ _ PanicOr.panicked f = PanicOr.panicked := rfl

theorem wrap32_pow_ne_zero (e : Nat) (he9 : e ≤ 9) :
    wrap32 ((10 : Int) ^ e) ≠ 0 := by
  have hc : ((10 : Int) ^ e) = ((10 ^ e : Nat) : Int) := by
    push_cast
    ring
  have hle : (10 : Nat) ^ e ≤ 10 ^ 9 := Nat.pow_le_pow_right (by norm_num) he9
  have h9lit : (10 : Nat) ^ 9 = 1000000000 := by norm_num
  have hpos : 1 ≤ (10 : Nat) ^ e := Nat.one_le_pow _ _ (by norm_num)
  have hi1 : ((10 ^ e : Nat) : Int) < 2147483648 := by exact_mod_cast by omega
  have hi2 : (1 : Int) ≤ ((10 ^ e : Nat) : Int) := by exact_mod_cast hpos
  rw [hc, wrap32_eq_self (by omega) hi1]
  omega

theorem readFraction_nil : readFraction [] = pure (0, 0, ([] : List Char)) := rfl

theorem readFraction_dot {fds : List Char} (hf1 : fds ≠ [])
    (hf2 : ∀ c ∈ fds, c.isDigit = true) (hf18 : fds.length ≤ 18) :
    readFraction ('.' :: fds) =
      pure (fracNanos (digitsVal fds) fds.length, fracPrec fds.length, ([] : List Char)) := by
  unfold readFraction
  split
  · rename_i rest heq
    injection heq with hc ht
    subst ht
    rw [readDigits_all hf1 hf2]
    simp only [pmSomeBind]
    by_cases h9 : fds.length < 9
    · simp only [if_pos h9, fracNanos, fracPrec]
    · by_cases h9b : fds.length > 9
      · simp only [if_neg h9, if_pos h9b,
          if_neg (wrap32_pow_ne_zero (fds.length - 9) (by omega)), fracNanos, fracPrec]
      · simp only [if_neg h9, if_neg h9b, fracNanos, fracPrec]
        have hlen : fds.length = 9 := by omega
        rw [hlen]
  · rename_i h
    exact (h fds rfl).elim

/-- Parsing a well-formed literal without a fractional part. -/
theorem fromStrO_body_nofrac {s : List Char} {minus : Bool}
    {dds hds mds sds : List Char}
    (hsign : dropSign s = (minus, dds ++ ' ' :: (hds ++ ':' :: (mds ++ ':' :: sds))))
    (hd1 : dds ≠ []) (hd2 : ∀ c ∈ dds, c.isDigit = true)
    (hh1 : hds ≠ []) (hh2 : ∀ c ∈ hds, c.isDigit = true)
    (hm1 : mds ≠ []) (hm2 : ∀ c ∈ mds, c.isDigit = true)
    (hs1 : sds ≠ []) (hs2 : ∀ c ∈ sds, c.isDigit = true) :
    fromStrO s =
      PanicOr.value (some
        { days := appSign minus (i32ofNat (digitsVal dds)),
          hours := appSign minus (i32ofNat (digitsVal hds)),
          minutes := appSign minus (i32ofNat (digitsVal mds)),
          seconds := appSign minus (i32ofNat (digitsVal sds)),
          nanoseconds := appSign minus 0,
          lfprec := dds.length % 256, fsprec := 0 }) := by
  simp only [fromStrO, hsign, readDigits_append_cons ' ' hd1 hd2 rfl,
    readDigits_append_cons ':' hh1 hh2 rfl, readDigits_append_cons ':' hm1 hm2 rfl,
    readDigits_all hs1 hs2, expectChar_cons_self, readFraction_nil, pmSomeBind,
    pmPureBind]
  simp [pmPure]

/-- Parsing a well-formed literal with a fractional part. -/
theorem fromStrO_body_frac {s : List Char} {minus : Bool}
    {dds hds mds sds fds : List Char}
    (hsign : dropSign s =
      (minus, dds ++ ' ' :: (hds ++ ':' :: (mds ++ ':' :: (sds ++ '.' :: fds)))))
    (hd1 : dds ≠ []) (hd2 : ∀ c ∈ dds, c.isDigit = true)
    (hh1 : hds ≠ []) (hh2 : ∀ c ∈ hds, c.isDigit = true)
    (hm1 : mds ≠ []) (hm2 : ∀ c ∈ mds, c.isDigit = true)
    (hs1 : sds ≠ []) (hs2 : ∀ c ∈ sds, c.isDigit = true)
    (hf1 : fds ≠ []) (hf2 : ∀ c ∈ fds, c.isDigit = true) (hf18 : fds.length ≤ 18) :
    fromStrO s =
      PanicOr.value (some
        { days := appSign minus (i32ofNat (digitsVal dds)),
          hours := appSign minus (i32ofNat (digitsVal hds)),
          minutes := appSign minus (i32ofNat (digitsVal mds)),
          seconds := appSign minus (i32ofNat (digitsVal sds)),
          nanoseconds := appSign minus (fracNanos (digitsVal fds) fds.length),
          lfprec := dds.length % 256, fsprec := fracPrec fds.length % 256 }) := by
  simp only [fromStrO, hsign, readDigits_append_cons ' ' hd1 hd2 rfl,
    readDigits_append_cons ':' hh1 hh2 rfl, readDigits_append_cons ':' hm1 hm2 rfl,
    readDigits_append_cons '.' hs1 hs2 rfl, expectChar_cons_self,
    readFraction_dot hf1 hf2 hf18, pmSomeBind, pmPureBind]
  simp [pmPure]

/-! ## Normalizing the encoder output -/

theorem dayField_eq (l : Nat) (d : Int) : dayField l d = fmtI32 (dayW l) d := by
  rcases l with _|_|_|_|_|_|_|_|_|_|l
  all_goals norm_num [dayField, dayW]
  rw [if_neg (by omega)]
  split <;> first | rfl | omega

theorem fracField_eq (p : Nat) (ns : Int) : fracField p ns = fracL p ns := by
  rcases p with _|_|_|_|_|_|_|_|_|_|p
  all_goals norm_num [fracField, fracL]
  rw [if_neg (by omega)]
  split <;> first | rfl | omega

theorem fmtI32_nonneg (w : Nat) {x : Int} (h : 0 ≤ x) :
    fmtI32 w x = padLeft w (natDigits x.toNat) := by
  unfold fmtI32
  rw [if_neg (by omega)]

/-- The encoder output in normal form: sign, then right-nested fields. -/
theorem encode_eq (v : IntervalDS) :
    v.encode = (if isNeg v then ['-'] else ['+'])
      ++ (fmtI32 (dayW v.lfprec) (i32abs v.days)
      ++ ' ' :: (fmtI32 2 (i32abs v.hours)
      ++ ':' :: (fmtI32 2 (i32abs v.minutes)
      ++ ':' :: (fmtI32 2 (i32abs v.seconds)
      ++ fracL v.fsprec (i32abs v.nanoseconds))))) := by
  unfold IntervalDS.encode isNeg
  rw [dayField_eq, fracField_eq]
  simp [List.append_assoc]

/-! ## Round-trip bridge lemmas -/

theorem fmtI32_i32abs (w : Nat) {x : Int} (h : -2147483648 < x) :
    fmtI32 w (i32abs x) = padLeft w (natDigits x.natAbs) := by
  rw [i32abs_eq h, fmtI32_nonneg w (by positivity)]
  rw [Int.toNat_natCast]

theorem padRun_ne (w n : Nat) : padLeft w (natDigits n) ≠ [] :=
  padLeft_ne_nil w (natDigits_ne_nil n)

theorem padRun_digits (w n : Nat) : ∀ c ∈ padLeft w (natDigits n), c.isDigit = true :=
  padLeft_digits w (natDigits_spec n).1

theorem padRun_val (w n : Nat) : digitsVal (padLeft w (natDigits n)) = n := by
  rw [digitsVal_padLeft]
  exact (natDigits_spec n).2.1

theorem appSign_natAbs_pos {x : Int} (h0 : 0 ≤ x) (hhi : x < 2147483648) :
    appSign false (i32ofNat x.natAbs) = x := by
  simp only [appSign, Bool.false_eq_true, if_false]
  rw [i32ofNat_eq (by omega)]
  omega

theorem appSign_natAbs_neg {x : Int} (h0 : x ≤ 0) (hlow : -2147483648 < x) :
    appSign true (i32ofNat x.natAbs) = x := by
  simp only [appSign, if_true]
  rw [i32ofNat_eq (by omega), wrap32_eq_self (by omega) (by omega)]
  omega

theorem fracNanos_exact {N p : Nat} (hp1 : 1 ≤ p) (hp9 : p ≤ 9) (hN : N ≤ 999999999)
    (hdvd : 10 ^ (9 - p) ∣ N) :
    fracNanos (N / 10 ^ (9 - p)) p = (N : Int) := by
  unfold fracNanos
  by_cases h9 : p < 9
  · rw [if_pos h9]
    have hqle : N / 10 ^ (9 - p) ≤ N := Nat.div_le_self _ _
    rw [i32ofNat_eq (by omega)]
    have h1 : N / 10 ^ (9 - p) * 10 ^ (9 - p) = N := Nat.div_mul_cancel hdvd
    have h2 : ((N / 10 ^ (9 - p) : Nat) : Int) * (10 : Int) ^ (9 - p) = (N : Int) := by
      push_cast
      exact_mod_cast h1
    rw [h2, wrap32_eq_self (by omega) (by omega)]
  · rw [if_neg h9, if_neg (by omega)]
    have hp' : p = 9 := by omega
    subst hp'
    simp only [Nat.sub_self, pow_zero, Nat.div_one]
    exact i32ofNat_eq (by omega)

theorem dayW_le (l : Nat) : dayW l ≤ 9 := by
  unfold dayW
  split <;> omega

theorem padLeft_dayW {W : Nat} (nd : List Char) (hW : W = 0 ∨ 2 ≤ W ∧ W ≤ 9)
    (hlen1 : 1 ≤ nd.length) (hlen9 : nd.length ≤ 9) :
    padLeft (dayW (max W nd.length)) nd = padLeft W nd := by
  rcases hW with h | h
  · subst h
    rw [Nat.max_eq_right (by omega), padLeft_zero]
    unfold dayW
    by_cases h2 : 2 ≤ nd.length
    · rw [if_pos ⟨h2, hlen9⟩, padLeft_self]
    · rw [if_neg (by omega), padLeft_zero]
  · have hd : dayW (max W nd.length) = max W nd.length := by
      unfold dayW
      rw [if_pos ⟨by omega, by omega⟩]
    rw [hd, padLeft_max]

theorem dayW_idem {l : Nat} (hl : l = 0 ∨ 2 ≤ l ∧ l ≤ 9) : dayW l = 0 ∨ 2 ≤ dayW l ∧ dayW l ≤ 9 := by
  unfold dayW
  rcases hl with h | h
  · subst h; left; rfl
  · rw [if_pos h]; right; exact h

theorem fracPrec_eq {p : Nat} (hp : p ≤ 9) : fracPrec p = p := by
  unfold fracPrec
  split <;> omega

theorem dropSign_minus (r : List Char) : dropSign ('-' :: r) = (true, r) := rfl

theorem dropSign_plus (r : List Char) : dropSign ('+' :: r) = (false, r) := rfl

/-! ## Round trip, fractionless case -/

theorem encode_decode_nofrac {d h m s : Int} {l : Nat}
    (hdom : inDomain ⟨d, h, m, s, 0, l, 0⟩) (hsc : signConsistent ⟨d, h, m, s, 0, l, 0⟩)
    (hl : l = 0 ∨ 2 ≤ l ∧ l ≤ 9) :
    fromStrO (IntervalDS.encode ⟨d, h, m, s, 0, l, 0⟩) =
      PanicOr.value (some ⟨d, h, m, s, 0, max (dayW l) (natDigits d.natAbs).length, 0⟩) ∧
    IntervalDS.encode ⟨d, h, m, s, 0, max (dayW l) (natDigits d.natAbs).length, 0⟩ =
      IntervalDS.encode ⟨d, h, m, s, 0, l, 0⟩ := by
  unfold inDomain at hdom
  dsimp only at hdom
  obtain ⟨hb1, hb2, hb3, hb4, hb5, hb6, hb7, hb8, -, -⟩ := hdom
  have hd31 : -2147483648 < d := by omega
  have hh31 : -2147483648 < h := by omega
  have hm31 : -2147483648 < m := by omega
  have hs31 : -2147483648 < s := by omega
  have hpow9 : (10 : Nat) ^ 9 = 1000000000 := by norm_num
  have hDlen9 : (natDigits d.natAbs).length ≤ 9 :=
    natDigits_length_le (by norm_num) (by rw [hpow9]; omega)
  have hfr0 : fracL 0 (i32abs (0 : Int)) = [] := by
    unfold fracL
    rw [if_neg (by omega)]
  have hbody : (⟨d, h, m, s, 0, l, 0⟩ : IntervalDS).encode =
      (if isNeg ⟨d, h, m, s, 0, l, 0⟩ then ['-'] else ['+'])
        ++ (padLeft (dayW l) (natDigits d.natAbs)
        ++ ' ' :: (padLeft 2 (natDigits h.natAbs)
        ++ ':' :: (padLeft 2 (natDigits m.natAbs)
        ++ ':' :: padLeft 2 (natDigits s.natAbs)))) := by
    rw [encode_eq]
    dsimp only
    rw [fmtI32_i32abs _ hd31, fmtI32_i32abs _ hh31, fmtI32_i32abs _ hm31,
      fmtI32_i32abs _ hs31, hfr0, List.append_nil]
  have hday : fmtI32 (dayW (max (dayW l) (natDigits d.natAbs).length)) (i32abs d) =
      fmtI32 (dayW l) (i32abs d) := by
    rw [fmtI32_i32abs _ hd31, fmtI32_i32abs _ hd31]
    exact padLeft_dayW (natDigits d.natAbs) (dayW_idem hl)
      (natDigits_spec d.natAbs).2.2.1 hDlen9
  have hlf : (padLeft (dayW l) (natDigits d.natAbs)).length % 256 =
      max (dayW l) (natDigits d.natAbs).length := by
    rw [padLeft_length]
    apply Nat.mod_eq_of_lt
    have := dayW_le l
    omega
  constructor
  · by_cases hneg : isNeg ⟨d, h, m, s, 0, l, 0⟩
    · have hns : d ≤ 0 ∧ h ≤ 0 ∧ m ≤ 0 ∧ s ≤ 0 := by
        unfold signConsistent at hsc
        unfold isNeg at hneg
        dsimp only at hsc hneg
        omega
      rw [hbody, if_pos hneg, List.singleton_append,
        fromStrO_body_nofrac (dropSign_minus _) (padRun_ne _ _) (padRun_digits _ _)
          (padRun_ne _ _) (padRun_digits _ _) (padRun_ne _ _) (padRun_digits _ _)
          (padRun_ne _ _) (padRun_digits _ _)]
      simp only [PanicOr.value.injEq, Option.some.injEq, IntervalDS.mk.injEq]
      refine ⟨?_, ?_, ?_, ?_, appSign_zero true, hlf, trivial⟩
      · rw [padRun_val]; exact appSign_natAbs_neg hns.1 hd31
      · rw [padRun_val]; exact appSign_natAbs_neg hns.2.1 hh31
      · rw [padRun_val]; exact appSign_natAbs_neg hns.2.2.1 hm31
      · rw [padRun_val]; exact appSign_natAbs_neg hns.2.2.2 hs31
    · have hps : 0 ≤ d ∧ 0 ≤ h ∧ 0 ≤ m ∧ 0 ≤ s := by
        unfold isNeg at hneg
        dsimp only at hneg
        omega
      rw [hbody, if_neg hneg, List.singleton_append,
        fromStrO_body_nofrac (dropSign_plus _) (padRun_ne _ _) (padRun_digits _ _)
          (padRun_ne _ _) (padRun_digits _ _) (padRun_ne _ _) (padRun_digits _ _)
          (padRun_ne _ _) (padRun_digits _ _)]
      simp only [PanicOr.value.injEq, Option.some.injEq, IntervalDS.mk.injEq]
      refine ⟨?_, ?_, ?_, ?_, appSign_zero false, hlf, trivial⟩
      · rw [padRun_val]; exact appSign_natAbs_pos hps.1 (by omega)
      · rw [padRun_val]; exact appSign_natAbs_pos hps.2.1 (by omega)
      · rw [padRun_val]; exact appSign_natAbs_pos hps.2.2.1 (by omega)
      · rw [padRun_val]; exact appSign_natAbs_pos hps.2.2.2 (by omega)
  · rw [encode_eq, encode_eq]
    dsimp only
    rw [hday]
    congr 1

/-! ## Round trip, fractional case -/

theorem encode_decode_frac {d h m s n : Int} {l p : Nat}
    (hdom : inDomain ⟨d, h, m, s, n, l, p⟩) (hsc : signConsistent ⟨d, h, m, s, n, l, p⟩)
    (hl : l = 0 ∨ 2 ≤ l ∧ l ≤ 9) (hp1 : 1 ≤ p) (hp9 : p ≤ 9)
    (hdvd : 10 ^ (9 - p) ∣ n.natAbs) :
    fromStrO (IntervalDS.encode ⟨d, h, m, s, n, l, p⟩) =
      PanicOr.value (some ⟨d, h, m, s, n, max (dayW l) (natDigits d.natAbs).length, p⟩) ∧
    IntervalDS.encode ⟨d, h, m, s, n, max (dayW l) (natDigits d.natAbs).length, p⟩ =
      IntervalDS.encode ⟨d, h, m, s, n, l, p⟩ := by
  unfold inDomain at hdom
  dsimp only at hdom
  obtain ⟨hb1, hb2, hb3, hb4, hb5, hb6, hb7, hb8, hb9, hb10⟩ := hdom
  have hd31 : -2147483648 < d := by omega
  have hh31 : -2147483648 < h := by omega
  have hm31 : -2147483648 < m := by omega
  have hs31 : -2147483648 < s := by omega
  have hn31 : -2147483648 < n := by omega
  have hpow9 : (10 : Nat) ^ 9 = 1000000000 := by norm_num
  have hDlen9 : (natDigits d.natAbs).length ≤ 9 :=
    natDigits_length_le (by norm_num) (by rw [hpow9]; omega)
  have hpowsplit : (10 : Nat) ^ (9 - p) * 10 ^ p = 10 ^ 9 := by
    rw [← pow_add]
    congr 1
    omega
  have hq_lt : n.natAbs / 10 ^ (9 - p) < 10 ^ p := by
    rw [Nat.div_lt_iff_lt_mul (by positivity), mul_comm, hpowsplit, hpow9]
    omega
  have hfds_len : (natDigits (n.natAbs / 10 ^ (9 - p))).length ≤ p :=
    natDigits_length_le hp1 hq_lt
  have hfr : fracL p ((n.natAbs : Int)) =
      '.' :: padLeft p (natDigits (n.natAbs / 10 ^ (9 - p))) := by
    unfold fracL
    rw [if_pos ⟨hp1, hp9⟩]
    have hcast : ((10 : Int) ^ (9 - p)) = ((10 ^ (9 - p) : Nat) : Int) := by
      push_cast
      ring
    rw [hcast, tdiv_natCast, fmtI32_nonneg _ (by positivity), Int.toNat_natCast]
  have hbody : (⟨d, h, m, s, n, l, p⟩ : IntervalDS).encode =
      (if isNeg ⟨d, h, m, s, n, l, p⟩ then ['-'] else ['+'])
        ++ (padLeft (dayW l) (natDigits d.natAbs)
        ++ ' ' :: (padLeft 2 (natDigits h.natAbs)
        ++ ':' :: (padLeft 2 (natDigits m.natAbs)
        ++ ':' :: (padLeft 2 (natDigits s.natAbs)
        ++ '.' :: padLeft p (natDigits (n.natAbs / 10 ^ (9 - p))))))) := by
    rw [encode_eq]
    dsimp only
    rw [fmtI32_i32abs _ hd31, fmtI32_i32abs _ hh31, fmtI32_i32abs _ hm31,
      fmtI32_i32abs _ hs31, i32abs_eq hn31, hfr]
  have hday : fmtI32 (dayW (max (dayW l) (natDigits d.natAbs).length)) (i32abs d) =
      fmtI32 (dayW l) (i32abs d) := by
    rw [fmtI32_i32abs _ hd31, fmtI32_i32abs _ hd31]
    exact padLeft_dayW (natDigits d.natAbs) (dayW_idem hl)
      (natDigits_spec d.natAbs).2.2.1 hDlen9
  have hlf : (padLeft (dayW l) (natDigits d.natAbs)).length % 256 =
      max (dayW l) (natDigits d.natAbs).length := by
    rw [padLeft_length]
    apply Nat.mod_eq_of_lt
    have := dayW_le l
    omega
  have hflen : (padLeft p (natDigits (n.natAbs / 10 ^ (9 - p)))).length = p := by
    rw [padLeft_length]
    omega
  have hfs : fracPrec (padLeft p (natDigits (n.natAbs / 10 ^ (9 - p)))).length % 256 = p := by
    rw [hflen, fracPrec_eq hp9]
    omega
  have hfnano : fracNanos
      (digitsVal (padLeft p (natDigits (n.natAbs / 10 ^ (9 - p)))))
      (padLeft p (natDigits (n.natAbs / 10 ^ (9 - p)))).length = (n.natAbs : Int) := by
    rw [padRun_val, hflen]
    exact fracNanos_exact hp1 hp9 (by omega) hdvd
  constructor
  · by_cases hneg : isNeg ⟨d, h, m, s, n, l, p⟩
    · have hns : d ≤ 0 ∧ h ≤ 0 ∧ m ≤ 0 ∧ s ≤ 0 ∧ n ≤ 0 := by
        unfold signConsistent at hsc
        unfold isNeg at hneg
        dsimp only at hsc hneg
        omega
      rw [hbody, if_pos hneg, List.singleton_append,
        fromStrO_body_frac (dropSign_minus _) (padRun_ne _ _) (padRun_digits _ _)
          (padRun_ne _ _) (padRun_digits _ _) (padRun_ne _ _) (padRun_digits _ _)
          (padRun_ne _ _) (padRun_digits _ _) (padRun_ne _ _) (padRun_digits _ _)
          (by rw [hflen]; omega)]
      simp only [PanicOr.value.injEq, Option.some.injEq, IntervalDS.mk.injEq]
      refine ⟨?_, ?_, ?_, ?_, ?_, hlf, hfs⟩
      · rw [padRun_val]; exact appSign_natAbs_neg hns.1 hd31
      · rw [padRun_val]; exact appSign_natAbs_neg hns.2.1 hh31
      · rw [padRun_val]; exact appSign_natAbs_neg hns.2.2.1 hm31
      · rw [padRun_val]; exact appSign_natAbs_neg hns.2.2.2.1 hs31
      · rw [hfnano]
        simp only [appSign, if_true]
        rw [wrap32_eq_self (by omega) (by omega)]
        omega
    · have hps : 0 ≤ d ∧ 0 ≤ h ∧ 0 ≤ m ∧ 0 ≤ s ∧ 0 ≤ n := by
        unfold isNeg at hneg
        dsimp only at hneg
        omega
      rw [hbody, if_neg hneg, List.singleton_append,
        fromStrO_body_frac (dropSign_plus _) (padRun_ne _ _) (padRun_digits _ _)
          (padRun_ne _ _) (padRun_digits _ _) (padRun_ne _ _) (padRun_digits _ _)
          (padRun_ne _ _) (padRun_digits _ _) (padRun_ne _ _) (padRun_digits _ _)
          (by rw [hflen]; omega)]
      simp only [PanicOr.value.injEq, Option.some.injEq, IntervalDS.mk.injEq]
      refine ⟨?_, ?_, ?_, ?_, ?_, hlf, hfs⟩
      · rw [padRun_val]; exact appSign_natAbs_pos hps.1 (by omega)
      · rw [padRun_val]; exact appSign_natAbs_pos hps.2.1 (by omega)
      · rw [padRun_val]; exact appSign_natAbs_pos hps.2.2.1 (by omega)
      · rw [padRun_val]; exact appSign_natAbs_pos hps.2.2.2.1 (by omega)
      · rw [hfnano]
        simp only [appSign, Bool.false_eq_true, if_false]
        omega
  · rw [encode_eq, encode_eq]
    dsimp only
    rw [hday]
    congr 1

/-! ## Decoder inversion: what any successful parse looks like -/

theorem noneBind {α β : Type} (f : α → Option β) :
    (none : Option α) >>= f = none := rfl

theorem fracPrec_le (n : Nat) : fracPrec n ≤ 9 := by
  unfold fracPrec
  split <;> omega

theorem fracGrammar_nil : fracGrammar [] = some [] := rfl

theorem fracGrammar_dot_eq (t : List Char) :
    fracGrammar ('.' :: t) = (readDigits t).bind fun u => some u.2.2 := by
  unfold fracGrammar
  split
  · rename_i rest heq
    injection heq with hc ht
    subst ht
    cases hr : readDigits t with
    | none => rfl
    | some u =>
      obtain ⟨a, nd, r⟩ := u
      simp only [someBind, Option.some_bind]
      rfl
  · rename_i hno
    exact (hno t rfl).elim

theorem fracGrammar_default {c : Char} (t : List Char) (hc : c ≠ '.') :
    fracGrammar (c :: t) = some (c :: t) := by
  unfold fracGrammar
  split
  · rename_i rest heq
    injection heq with h1 _
    exact absurd h1 hc
  · rfl

theorem readFraction_value {s : List Char} {ns : Int} {fp : Nat} {r : List Char}
    (h : readFraction s = PanicOr.value (some (ns, fp, r))) :
    fp ≤ 9 ∧ fracGrammar s = some r := by
  cases s with
  | nil =>
    rw [readFraction_nil, pmPure] at h
    injection h with h
    injection h with h
    injection h with h1 h
    injection h with h2 h3
    subst h2
    subst h3
    exact ⟨by omega, rfl⟩
  | cons c w =>
    by_cases hc : c = '.'
    · subst hc
      rw [fracGrammar_dot_eq]
      unfold readFraction at h
      split at h
      · rename_i rest heq
        injection heq with _ ht
        subst ht
        cases hr : readDigits w with
        | none =>
          rw [hr, pmNoneBind] at h
          injection h with h
          exact Option.noConfusion h
        | some u =>
          obtain ⟨a, nd, rr⟩ := u
          rw [hr, pmSomeBind] at h
          dsimp only at h
          by_cases h9 : nd < 9
          · rw [if_pos h9, pmPure] at h
            injection h with h
            injection h with h
            injection h with _ h
            injection h with h2 h3
            subst h3
            exact ⟨by omega, rfl⟩
          · by_cases h9b : nd > 9
            · rw [if_neg h9, if_pos h9b] at h
              by_cases hz : wrap32 ((10 : Int) ^ (nd - 9)) = 0
              · rw [if_pos hz] at h
                exact PanicOr.noConfusion h
              · rw [if_neg hz, pmPure] at h
                injection h with h
                injection h with h
                injection h with _ h
                injection h with h2 h3
                subst h3
                exact ⟨by omega, rfl⟩
            · rw [if_neg h9, if_neg h9b, pmPure] at h
              injection h with h
              injection h with h
              injection h with _ h
              injection h with h2 h3
              subst h3
              exact ⟨by omega, rfl⟩
      · rename_i hno
        exact (hno w rfl).elim
    · unfold readFraction at h
      split at h
      · rename_i rest heq
        injection heq with h1 _
        exact absurd h1 hc
      · rw [pmPure] at h
        injection h with h
        injection h with h
        injection h with h1 h
        injection h with h2 h3
        subst h2
        subst h3
        exact ⟨by omega, fracGrammar_default w hc⟩

theorem readDigits_ndigits {s : List Char} {a b : Nat} {r : List Char}
    (h : readDigits s = some (a, b, r)) :
    b = (s.takeWhile Char.isDigit).length := by
  unfold readDigits at h
  dsimp only at h
  split at h
  · exact Option.noConfusion h
  · injection h with h
    injection h with _ h
    injection h with h _
    omega

/-- Any value the decoder returns by normal (non-panicking) success comes
from a literal of the §4.4 grammar, has `fsprec ≤ 9`, and has `lfprec` the
(u8-cast) day digit count. -/
theorem fromStrO_inv (s : List Char) :
    ∀ v, fromStrO s = PanicOr.value (some v) →
      specGrammar s = true ∧ v.fsprec ≤ 9 ∧
      v.lfprec = ((dropSign s).2.takeWhile Char.isDigit).length % 256 := by
  intro v hv
  rcases hds : dropSign s with ⟨minus, s1⟩
  unfold fromStrO at hv
  unfold specGrammar
  rw [hds] at hv ⊢
  dsimp only at hv ⊢
  cases h1 : readDigits s1 with
  | none =>
    rw [h1, pmNoneBind] at hv
    injection hv with hv
    exact Option.noConfusion hv
  | some t1 =>
  obtain ⟨dN, dL, s2⟩ := t1
  rw [h1] at hv
  simp only [pmSomeBind] at hv
  simp only [someBind]
  cases h2 : expectChar ' ' s2 with
  | none =>
    rw [h2, pmNoneBind] at hv
    injection hv with hv
    exact Option.noConfusion hv
  | some s3 =>
  rw [h2] at hv
  simp only [pmSomeBind] at hv
  simp only [someBind]
  cases h3 : readDigits s3 with
  | none =>
    rw [h3, pmNoneBind] at hv
    injection hv with hv
    exact Option.noConfusion hv
  | some t3 =>
  obtain ⟨hN, hL, s4⟩ := t3
  rw [h3] at hv
  simp only [pmSomeBind] at hv
  simp only [someBind]
  cases h4 : expectChar ':' s4 with
  | none =>
    rw [h4, pmNoneBind] at hv
    injection hv with hv
    exact Option.noConfusion hv
  | some s5 =>
  rw [h4] at hv
  simp only [pmSomeBind] at hv
  simp only [someBind]
  cases h5 : readDigits s5 with
  | none =>
    rw [h5, pmNoneBind] at hv
    injection hv with hv
    exact Option.noConfusion hv
  | some t5 =>
  obtain ⟨mN, mL, s6⟩ := t5
  rw [h5] at hv
  simp only [pmSomeBind] at hv
  simp only [someBind]
  cases h6 : expectChar ':' s6 with
  | none =>
    rw [h6, pmNoneBind] at hv
    injection hv with hv
    exact Option.noConfusion hv
  | some s7 =>
  rw [h6] at hv
  simp only [pmSomeBind] at hv
  simp only [someBind]
  cases h7 : readDigits s7 with
  | none =>
    rw [h7, pmNoneBind] at hv
    injection hv with hv
    exact Option.noConfusion hv
  | some t7 =>
  obtain ⟨sN, sL, s8⟩ := t7
  rw [h7] at hv
  simp only [pmSomeBind] at hv
  simp only [someBind]
  cases h8 : readFraction s8 with
  | panicked =>
    rw [h8, pmPanicBind] at hv
    exact PanicOr.noConfusion hv
  | value o =>
  cases o with
  | none =>
    rw [h8, pmValueNoneBind] at hv
    injection hv with hv
    exact Option.noConfusion hv
  | some t8 =>
  obtain ⟨nsec, fp, s9⟩ := t8
  rw [h8] at hv
  simp only [pmValueBind] at hv
  obtain ⟨hfp9, h8g⟩ := readFraction_value h8
  rw [h8g]
  simp only [someBind]
  by_cases h9 : s9 = []
  · subst h9
    rw [if_neg (fun h => h rfl), pmPure] at hv
    injection hv with hv
    injection hv with hv
    subst hv
    refine ⟨by simp, ?_, ?_⟩
    · dsimp only
      omega
    · dsimp only
      rw [readDigits_ndigits h1]
  · rw [if_pos h9] at hv
    injection hv with hv
    exact Option.noConfusion hv

/-! ## Last helper lemmas -/

theorem fracPrec_min (n : Nat) : fracPrec n = min n 9 := by
  unfold fracPrec
  split <;> omega

theorem encode_head (v : IntervalDS) :
    v.encode.head? = some (if isNeg v then '-' else '+') := by
  rw [encode_eq]
  by_cases hn : isNeg v
  · rw [if_pos hn, if_pos hn]
    rfl
  · rw [if_neg hn, if_neg hn]
    rfl

theorem encode_len (v : IntervalDS) : 1 ≤ v.encode.length := by
  rw [encode_eq]
  by_cases hn : isNeg v
  · rw [if_pos hn]; simp
  · rw [if_neg hn]; simp

/-! ## Claim theorems -/

/-- C2: two Interval Values are equal exactly when their five components
`days, hours, minutes, seconds, nanoseconds` coincide; the two precision
fields never influence equality, so every value equals its own
precision-rebound copy `and_prec l f`. -/
theorem C2_eq_ignores_prec :
    (∀ a b : IntervalDS, a.eqv b = true ↔
      (a.days = b.days ∧ a.hours = b.hours ∧ a.minutes = b.minutes ∧
       a.seconds = b.seconds ∧ a.nanoseconds = b.nanoseconds)) ∧
    (∀ (v : IntervalDS) (l f : Nat), v.eqv (v.and_prec l f) = true) := by
  constructor
  · intro a b
    simp [IntervalDS.eqv, and_assoc]
  · intro v l f
    simp [IntervalDS.eqv, IntervalDS.and_prec]

/-- C5: the encoder emits the sign character `-` exactly when at least one
of the five components is strictly negative and `+` otherwise, and the two
example values encode to the documented strings. -/
theorem C5_sign :
    (∀ v : IntervalDS,
      (v.encode.head? = some '-' ↔
        (v.days < 0 ∨ v.hours < 0 ∨ v.minutes < 0 ∨ v.seconds < 0 ∨ v.nanoseconds < 0)) ∧
      (v.encode.head? = some '+' ↔
        ¬(v.days < 0 ∨ v.hours < 0 ∨ v.minutes < 0 ∨ v.seconds < 0 ∨ v.nanoseconds < 0))) ∧
    (IntervalDS.new 1 2 3 4 500000000).encode = "+000000001 02:03:04.500000000".data ∧
    (IntervalDS.new (-1) (-2) (-3) (-4) (-500000000)).encode =
      "-000000001 02:03:04.500000000".data := by
  refine ⟨?_, by rfl, by rfl⟩
  intro v
  have hh := encode_head v
  by_cases hn : isNeg v
  · rw [if_pos hn] at hh
    rw [hh]
    unfold isNeg at hn
    constructor
    · simp [hn]
    · simp [hn]
  · rw [if_neg hn] at hh
    rw [hh]
    unfold isNeg at hn
    constructor
    · simp [hn]
    · simp [hn]

/-- C9: construction (`new`, `and_prec`, the native-record adapter) and
encoding are total: every value, whatever its components and precision
fields, encodes to a non-empty string starting with a sign character, with
no error path. -/
theorem C9_total :
    (∀ v : IntervalDS, 1 ≤ v.encode.length ∧
      (v.encode.head? = some '+' ∨ v.encode.head? = some '-')) ∧
    (∀ (d h m s n : Int) (l f : Nat),
      1 ≤ ((IntervalDS.new d h m s n).and_prec l f).encode.length) ∧
    (∀ (it : dpiIntervalDS) (ot : OracleType),
      1 ≤ (IntervalDS.from_dpi_interval_ds it ot).encode.length) := by
  refine ⟨fun v => ⟨encode_len v, ?_⟩, fun d h m s n l f => encode_len _,
    fun it ot => encode_len _⟩
  have hh := encode_head v
  by_cases hn : isNeg v
  · rw [if_pos hn] at hh
    right
    exact hh
  · rw [if_neg hn] at hh
    left
    exact hh

/-- C10: the decoder accepts hour, minute and second digit runs of any
length, not merely the two-digit runs the encoder produces: `"1 2:3:4"`
parses to the same components as `"1 02:03:04"`, no encoder output equals
`"1 2:3:4"`, and in general any four non-empty digit runs in the
`D H:M:S` frame are accepted. -/
theorem C10_lenient_runs :
    (IntervalDS.fromStr "1 2:3:4".data = some (Except.ok ⟨1, 2, 3, 4, 0, 1, 0⟩)) ∧
    (IntervalDS.fromStr "1 02:03:04".data = some (Except.ok ⟨1, 2, 3, 4, 0, 1, 0⟩)) ∧
    (∀ v : IntervalDS, v.encode ≠ "1 2:3:4".data) ∧
    (∀ dds hds mds sds : List Char,
      dds ≠ [] → (∀ c ∈ dds, c.isDigit = true) →
      hds ≠ [] → (∀ c ∈ hds, c.isDigit = true) →
      mds ≠ [] → (∀ c ∈ mds, c.isDigit = true) →
      sds ≠ [] → (∀ c ∈ sds, c.isDigit = true) →
      IntervalDS.fromStr (dds ++ ' ' :: (hds ++ ':' :: (mds ++ ':' :: sds))) =
        some (Except.ok ⟨i32ofNat (digitsVal dds), i32ofNat (digitsVal hds),
          i32ofNat (digitsVal mds), i32ofNat (digitsVal sds), 0,
          dds.length % 256, 0⟩)) := by
  refine ⟨by rfl, by rfl, ?_, ?_⟩
  · intro v hv
    have hh := encode_head v
    rw [hv] at hh
    by_cases hn : isNeg v
    · rw [if_pos hn] at hh
      exact absurd hh (by decide)
    · rw [if_neg hn] at hh
      exact absurd hh (by decide)
  · intro dds hds mds sds hd1 hd2 hh1 hh2 hm1 hm2 hs1 hs2
    obtain ⟨c, t, rfl⟩ : ∃ c t, dds = c :: t := by
      cases dds with
      | nil => exact absurd rfl hd1
      | cons c t => exact ⟨c, t, rfl⟩
    have hcd : c.isDigit = true := hd2 c (by simp)
    have hcp : c ≠ '+' := by intro he; rw [he] at hcd; exact absurd hcd (by decide)
    have hcm : c ≠ '-' := by intro he; rw [he] at hcd; exact absurd hcd (by decide)
    have hsign : dropSign ((c :: t) ++ ' ' :: (hds ++ ':' :: (mds ++ ':' :: sds))) =
        (false, (c :: t) ++ ' ' :: (hds ++ ':' :: (mds ++ ':' :: sds))) := by
      rw [List.cons_append]
      exact dropSign_cons _ hcp hcm
    unfold IntervalDS.fromStr
    rw [fromStrO_body_nofrac hsign hd1 hd2 hh1 hh2 hm1 hm2 hs1 hs2]
    simp [appSign]

theorem dropSign_if (minus : Bool) (r : List Char) :
    dropSign ((if minus then ['-'] else ['+']) ++ r) = (minus, r) := by
  cases minus
  · rfl
  · rfl

theorem fracNanos_eval {v n : Nat} (hvn : v < 10 ^ n) (hv : v < 2147483648)
    (hn18 : n ≤ 18) :
    fracNanos v n =
      (if n < 9 then ((v * 10 ^ (9 - n) : Nat) : Int)
       else ((v / 10 ^ (n - 9) : Nat) : Int)) := by
  unfold fracNanos
  by_cases h9 : n < 9
  · rw [if_pos h9, if_pos h9]
    have hp8 : (10 : Nat) ^ n ≤ 10 ^ 8 := Nat.pow_le_pow_right (by norm_num) (by omega)
    have h8lit : (10 : Nat) ^ 8 = 100000000 := by norm_num
    rw [i32ofNat_eq (by omega)]
    have hpos : 0 < (10 : Nat) ^ (9 - n) := by positivity
    have hb : v * 10 ^ (9 - n) < 10 ^ 9 := by
      calc v * 10 ^ (9 - n) < 10 ^ n * 10 ^ (9 - n) := (Nat.mul_lt_mul_right hpos).mpr hvn
      _ = 10 ^ 9 := by rw [← pow_add]; congr 1; omega
    have h9lit : (10 : Nat) ^ 9 = 1000000000 := by norm_num
    have hcast : (v : Int) * (10 : Int) ^ (9 - n) = ((v * 10 ^ (9 - n) : Nat) : Int) := by
      push_cast
      ring
    have hi1 : ((v * 10 ^ (9 - n) : Nat) : Int) < 2147483648 := by exact_mod_cast by omega
    have hi2 : (0 : Int) ≤ ((v * 10 ^ (9 - n) : Nat) : Int) := Int.natCast_nonneg _
    rw [hcast, wrap32_eq_self (by omega) hi1]
  · rw [if_neg h9, if_neg h9]
    by_cases h9b : n > 9
    · rw [if_pos h9b, i32ofNat_eq hv]
      have hple : (10 : Nat) ^ (n - 9) ≤ 10 ^ 9 := Nat.pow_le_pow_right (by norm_num) (by omega)
      have h9lit : (10 : Nat) ^ 9 = 1000000000 := by norm_num
      have hw : wrap32 ((10 : Int) ^ (n - 9)) = ((10 ^ (n - 9) : Nat) : Int) := by
        have hc : ((10 : Int) ^ (n - 9)) = ((10 ^ (n - 9) : Nat) : Int) := by
          push_cast
          ring
        have hi1 : ((10 ^ (n - 9) : Nat) : Int) < 2147483648 := by exact_mod_cast by omega
        have hi2 : (0 : Int) ≤ ((10 ^ (n - 9) : Nat) : Int) := Int.natCast_nonneg _
        rw [hc, wrap32_eq_self (by omega) hi1]
      rw [hw, tdiv_natCast]
    · rw [if_neg h9b, i32ofNat_eq hv]
      have hn9 : n = 9 := by omega
      subst hn9
      norm_num

/-- C1 counterexample: the value `construct(0,0,0,0,123456789)` at precision
pair `(0, 3)` satisfies every hypothesis of the stated claim, yet
decode∘encode changes its nanoseconds from `123456789` to `123000000` (the
encoder truncates to 3 fractional digits), so the decoded value is not
component-wise equal to the original. -/
theorem C1_counterexample :
    inDomain ((IntervalDS.new 0 0 0 0 123456789).and_prec 0 3) ∧
    signConsistent ((IntervalDS.new 0 0 0 0 123456789).and_prec 0 3) ∧
    ((IntervalDS.new 0 0 0 0 123456789).and_prec 0 3).lfprec = 0 ∧
    ((IntervalDS.new 0 0 0 0 123456789).and_prec 0 3).fsprec = 3 ∧
    IntervalDS.fromStr ((IntervalDS.new 0 0 0 0 123456789).and_prec 0 3).encode =
      some (Except.ok ⟨0, 0, 0, 0, 123000000, 1, 3⟩) ∧
    (IntervalDS.mk 0 0 0 0 123000000 1 3).eqv
      ((IntervalDS.new 0 0 0 0 123456789).and_prec 0 3) = false := by
  exact ⟨by decide, by decide, rfl, rfl, by rfl, by decide⟩

/-- C1 (amended): for every in-domain, sign-consistent Interval Value whose
`fsprec` `p` is in `[0,9]`, whose `lfprec` is in `{0} ∪ [2,9]`, and whose
nanosecond magnitude is a multiple of `10^(9-p)` (the value is representable
at its own fractional precision — the counterexample shows the claim fails
without this), decoding the encoded string yields a value with the same five
components, and re-encoding it reproduces the original string exactly. -/
theorem C1_roundtrip (v : IntervalDS) (hdom : inDomain v) (hsc : signConsistent v)
    (hl : v.lfprec = 0 ∨ 2 ≤ v.lfprec ∧ v.lfprec ≤ 9) (hp : v.fsprec ≤ 9)
    (hdvd : 10 ^ (9 - v.fsprec) ∣ v.nanoseconds.natAbs) :
    ∃ w : IntervalDS, IntervalDS.fromStr v.encode = some (Except.ok w) ∧
      w.eqv v = true ∧ w.encode = v.encode := by
  obtain ⟨d, h, m, s, n, l, p⟩ := v
  dsimp only at hl hp hdvd
  by_cases hp0 : p = 0
  · subst hp0
    have hn0 : n = 0 := by
      have hna : n.natAbs ≤ 999999999 := by
        unfold inDomain at hdom
        dsimp only at hdom
        omega
      have h9lit : (10 : Nat) ^ (9 - 0) = 1000000000 := by norm_num
      have := Nat.eq_zero_of_dvd_of_lt hdvd (by omega)
      omega
    subst hn0
    obtain ⟨hw1, hw2⟩ := encode_decode_nofrac hdom hsc hl
    refine ⟨_, ?_, ?_, hw2⟩
    · unfold IntervalDS.fromStr
      rw [hw1]
    · simp [IntervalDS.eqv]
  · obtain ⟨hw1, hw2⟩ := encode_decode_frac hdom hsc hl (by omega) hp hdvd
    refine ⟨_, ?_, ?_, hw2⟩
    · unfold IntervalDS.fromStr
      rw [hw1]
    · simp [IntervalDS.eqv]

theorem C1_roundtrip_witness :
    (inDomain (IntervalDS.new 1 2 3 4 500000000) ∧
     signConsistent (IntervalDS.new 1 2 3 4 500000000) ∧
     ((IntervalDS.new 1 2 3 4 500000000).lfprec = 0 ∨
       2 ≤ (IntervalDS.new 1 2 3 4 500000000).lfprec ∧
       (IntervalDS.new 1 2 3 4 500000000).lfprec ≤ 9) ∧
     (IntervalDS.new 1 2 3 4 500000000).fsprec ≤ 9 ∧
     10 ^ (9 - (IntervalDS.new 1 2 3 4 500000000).fsprec) ∣
       (IntervalDS.new 1 2 3 4 500000000).nanoseconds.natAbs) ∧
    ∃ w : IntervalDS,
      IntervalDS.fromStr (IntervalDS.new 1 2 3 4 500000000).encode = some (Except.ok w) ∧
      w.eqv (IntervalDS.new 1 2 3 4 500000000) = true ∧
      w.encode = (IntervalDS.new 1 2 3 4 500000000).encode :=
  ⟨⟨by decide, by decide, by decide, by decide, one_dvd _⟩,
   C1_roundtrip _ (by decide) (by decide) (by decide) (by decide) (one_dvd _)⟩

/-- C3 counterexample: a 10-digit fraction whose parsed value `9999999999`
does not fit in `i32` is wrapped by the `as i32` cast before the claimed
scaling division: decoding `"0 00:00:00.9999999999"` produces nanoseconds
`141006540` (`9999999999 mod 2^32 = 1410065407`, then `/ 10`), not the
`999999999` the claim's truncating division of the parsed integer gives. -/
theorem C3_counterexample :
    IntervalDS.fromStr "0 00:00:00.9999999999".data =
      some (Except.ok ⟨0, 0, 0, 0, 141006540, 1, 9⟩) ∧
    ((141006540 : Int) ≠ ((9999999999 / 10 ^ (10 - 9) : Nat) : Int)) := by
  exact ⟨by rfl, by decide⟩

/-- C3 (amended): for a literal with a fraction of `d ≥ 1` digits — provided
the parsed fraction fits in `i32` (below `2^31`; the counterexample shows
the claim fails otherwise), `d ≤ 18`, and the day run is shorter than 256
digits (the `as u8` cast) — the decoder sets `lfprec` to the day digit
count and derives `fsprec = min d 9` and the nanoseconds by scaling the
parsed integer up by `10^(9-d)` when `d < 9`, keeping it when `d = 9`, and
dividing it truncating by `10^(d-9)` when `d > 9`; with no `.` present
nanoseconds is 0 and `fsprec` is 0. -/
theorem C3_derived_precision :
    (∀ (minus : Bool) (dds hds mds sds fds : List Char),
      dds ≠ [] → (∀ c ∈ dds, c.isDigit = true) →
      hds ≠ [] → (∀ c ∈ hds, c.isDigit = true) →
      mds ≠ [] → (∀ c ∈ mds, c.isDigit = true) →
      sds ≠ [] → (∀ c ∈ sds, c.isDigit = true) →
      fds ≠ [] → (∀ c ∈ fds, c.isDigit = true) →
      dds.length < 256 → digitsVal fds < 2147483648 → fds.length ≤ 18 →
      IntervalDS.fromStr ((if minus then ['-'] else ['+']) ++
          (dds ++ ' ' :: (hds ++ ':' :: (mds ++ ':' :: (sds ++ '.' :: fds))))) =
        some (Except.ok ⟨appSign minus (i32ofNat (digitsVal dds)),
          appSign minus (i32ofNat (digitsVal hds)),
          appSign minus (i32ofNat (digitsVal mds)),
          appSign minus (i32ofNat (digitsVal sds)),
          appSign minus
            (if fds.length < 9 then ((digitsVal fds * 10 ^ (9 - fds.length) : Nat) : Int)
             else ((digitsVal fds / 10 ^ (fds.length - 9) : Nat) : Int)),
          dds.length, min fds.length 9⟩)) ∧
    (∀ (minus : Bool) (dds hds mds sds : List Char),
      dds ≠ [] → (∀ c ∈ dds, c.isDigit = true) →
      hds ≠ [] → (∀ c ∈ hds, c.isDigit = true) →
      mds ≠ [] → (∀ c ∈ mds, c.isDigit = true) →
      sds ≠ [] → (∀ c ∈ sds, c.isDigit = true) →
      dds.length < 256 →
      IntervalDS.fromStr ((if minus then ['-'] else ['+']) ++
          (dds ++ ' ' :: (hds ++ ':' :: (mds ++ ':' :: sds)))) =
        some (Except.ok ⟨appSign minus (i32ofNat (digitsVal dds)),
          appSign minus (i32ofNat (digitsVal hds)),
          appSign minus (i32ofNat (digitsVal mds)),
          appSign minus (i32ofNat (digitsVal sds)), 0, dds.length, 0⟩)) := by
  constructor
  · intro minus dds hds mds sds fds hd1 hd2 hh1 hh2 hm1 hm2 hs1 hs2 hf1 hf2 hdL hfv hf18
    unfold IntervalDS.fromStr
    rw [fromStrO_body_frac (dropSign_if minus _) hd1 hd2 hh1 hh2 hm1 hm2 hs1 hs2 hf1 hf2 hf18]
    simp only [Option.some.injEq, Except.ok.injEq, IntervalDS.mk.injEq]
    refine ⟨trivial, trivial, trivial, trivial, ?_, ?_, ?_⟩
    · rw [fracNanos_eval (digitsVal_lt hf2) hfv hf18]
    · exact Nat.mod_eq_of_lt hdL
    · rw [fracPrec_min]
      exact Nat.mod_eq_of_lt (by omega)
  · intro minus dds hds mds sds hd1 hd2 hh1 hh2 hm1 hm2 hs1 hs2 hdL
    unfold IntervalDS.fromStr
    rw [fromStrO_body_nofrac (dropSign_if minus _) hd1 hd2 hh1 hh2 hm1 hm2 hs1 hs2]
    simp only [Option.some.injEq, Except.ok.injEq, IntervalDS.mk.injEq]
    exact ⟨trivial, trivial, trivial, trivial, appSign_zero minus, Nat.mod_eq_of_lt hdL, trivial⟩

theorem C3_derived_precision_witness :
    ("1".data ≠ ([] : List Char)) ∧
    IntervalDS.fromStr ((if false then ['-'] else ['+']) ++
        ("1".data ++ ' ' :: ("2".data ++ ':' :: ("3".data ++ ':' ::
          ("4".data ++ '.' :: "1234567890".data))))) =
      some (Except.ok ⟨appSign false (i32ofNat (digitsVal "1".data)),
        appSign false (i32ofNat (digitsVal "2".data)),
        appSign false (i32ofNat (digitsVal "3".data)),
        appSign false (i32ofNat (digitsVal "4".data)),
        appSign false
          (if "1234567890".data.length < 9 then
            ((digitsVal "1234567890".data * 10 ^ (9 - "1234567890".data.length) : Nat) : Int)
           else ((digitsVal "1234567890".data / 10 ^ ("1234567890".data.length - 9) : Nat) : Int)),
        "1".data.length, min "1234567890".data.length 9⟩) :=
  ⟨by decide,
   C3_derived_precision.1 false "1".data "2".data "3".data "4".data "1234567890".data
     (by decide) (by decide) (by decide) (by decide) (by decide) (by decide)
     (by decide) (by decide) (by decide) (by decide) (by decide) (by decide) (by decide)⟩

/-- C4 counterexample: the literal `"1 02:03:04."` followed by 41 digits and
a trailing `'x'` violates the grammar (trailing garbage after the fraction
run), yet the decoder does not return the uniform malformed-literal error:
with 41 fraction digits the source computes `10i32.pow(41 - 9)`, which wraps
to 0, and the subsequent `nsecs /= 0` is a division by zero that panics
before the trailing-character check, so decoding produces no outcome at all
(`none`) rather than the claimed uniform error. -/
theorem C4_counterexample :
    specGrammar "1 02:03:04.11111111111111111111111111111111111111111x".data = false ∧
    IntervalDS.fromStr "1 02:03:04.11111111111111111111111111111111111111111x".data =
      none := by
  exact ⟨by decide, by rfl⟩

/-- C4 (amended): on every input on which the decoder terminates normally
(the counterexample shows a fraction run of 41 or more digits makes the
fraction block divide by a wrapped-to-zero power of ten and panic instead),
a grammar violation yields the single uniform malformed-literal error
carrying the target type name `"IntervalDS"` and no value; in particular the
four listed malformed inputs are all so rejected. -/
theorem C4_malformed :
    (∀ s : List Char, (IntervalDS.fromStr s).isSome = true → specGrammar s = false →
      IntervalDS.fromStr s = some (Except.error (ParseOracleTypeError.mk "IntervalDS"))) ∧
    IntervalDS.fromStr "".data =
      some (Except.error (ParseOracleTypeError.mk "IntervalDS")) ∧
    IntervalDS.fromStr "1 02:03".data =
      some (Except.error (ParseOracleTypeError.mk "IntervalDS")) ∧
    IntervalDS.fromStr "1 02:03:04x".data =
      some (Except.error (ParseOracleTypeError.mk "IntervalDS")) ∧
    IntervalDS.fromStr "1 02:03:04.".data =
      some (Except.error (ParseOracleTypeError.mk "IntervalDS")) := by
  refine ⟨?_, by rfl, by rfl, by rfl, by rfl⟩
  intro s hsome hs
  unfold IntervalDS.fromStr at hsome ⊢
  cases hf : fromStrO s with
  | panicked =>
    rw [hf] at hsome
    simp at hsome
  | value o =>
    cases o with
    | none => rfl
    | some v =>
      have hg := (fromStrO_inv s v hf).1
      rw [hs] at hg
      exact Bool.noConfusion hg

theorem C4_malformed_witness :
    (IntervalDS.fromStr "x".data).isSome = true ∧
    specGrammar "x".data = false ∧
    IntervalDS.fromStr "x".data =
      some (Except.error (ParseOracleTypeError.mk "IntervalDS")) :=
  ⟨by decide, by decide, C4_malformed.1 "x".data (by decide) (by decide)⟩

/-- C6: the encoder renders the day field as the absolute value of `days`,
zero-padded to width `lfprec` exactly when `lfprec ∈ [2,9]`, and at natural
decimal width (no padding) for `lfprec = 0` or any value outside `[2,9]`,
including 1 and values above 9. -/
theorem C6_day_field (v : IntervalDS) (hd : -2147483648 < v.days) :
    v.encode = (if isNeg v then ['-'] else ['+'])
      ++ ((if 2 ≤ v.lfprec ∧ v.lfprec ≤ 9 then padLeft v.lfprec (natDigits v.days.natAbs)
           else natDigits v.days.natAbs)
      ++ ' ' :: (fmtI32 2 (i32abs v.hours)
      ++ ':' :: (fmtI32 2 (i32abs v.minutes)
      ++ ':' :: (fmtI32 2 (i32abs v.seconds)
      ++ fracL v.fsprec (i32abs v.nanoseconds))))) := by
  rw [encode_eq, fmtI32_i32abs _ hd]
  unfold dayW
  by_cases hc : 2 ≤ v.lfprec ∧ v.lfprec ≤ 9
  · rw [if_pos hc, if_pos hc]
  · rw [if_neg hc, if_neg hc, padLeft_zero]

theorem C6_day_field_witness :
    (-2147483648 < ((IntervalDS.new 5 0 0 0 0).and_prec 1 0).days) ∧
    ((IntervalDS.new 5 0 0 0 0).and_prec 1 0).encode =
      (if isNeg ((IntervalDS.new 5 0 0 0 0).and_prec 1 0) then ['-'] else ['+'])
      ++ ((if 2 ≤ ((IntervalDS.new 5 0 0 0 0).and_prec 1 0).lfprec ∧
              ((IntervalDS.new 5 0 0 0 0).and_prec 1 0).lfprec ≤ 9 then
            padLeft ((IntervalDS.new 5 0 0 0 0).and_prec 1 0).lfprec
              (natDigits ((IntervalDS.new 5 0 0 0 0).and_prec 1 0).days.natAbs)
           else natDigits ((IntervalDS.new 5 0 0 0 0).and_prec 1 0).days.natAbs)
      ++ ' ' :: (fmtI32 2 (i32abs ((IntervalDS.new 5 0 0 0 0).and_prec 1 0).hours)
      ++ ':' :: (fmtI32 2 (i32abs ((IntervalDS.new 5 0 0 0 0).and_prec 1 0).minutes)
      ++ ':' :: (fmtI32 2 (i32abs ((IntervalDS.new 5 0 0 0 0).and_prec 1 0).seconds)
      ++ fracL ((IntervalDS.new 5 0 0 0 0).and_prec 1 0).fsprec
           (i32abs ((IntervalDS.new 5 0 0 0 0).and_prec 1 0).nanoseconds))))) :=
  ⟨by decide, C6_day_field _ (by decide)⟩

/-- C7: the encoder emits no fractional part when `fsprec` is 0 or outside
`[1,9]`; for `fsprec = p ∈ [1,9]` it emits `.` followed by
`⌊|nanoseconds| / 10^(9-p)⌋` zero-padded to exactly `p` digits (truncation,
never rounding). -/
theorem C7_frac_field (v : IntervalDS) (hn : -2147483648 < v.nanoseconds) :
    (v.encode = (if isNeg v then ['-'] else ['+'])
      ++ (fmtI32 (dayW v.lfprec) (i32abs v.days)
      ++ ' ' :: (fmtI32 2 (i32abs v.hours)
      ++ ':' :: (fmtI32 2 (i32abs v.minutes)
      ++ ':' :: (fmtI32 2 (i32abs v.seconds)
      ++ (if 1 ≤ v.fsprec ∧ v.fsprec ≤ 9 then
            '.' :: padLeft v.fsprec (natDigits (v.nanoseconds.natAbs / 10 ^ (9 - v.fsprec)))
          else [])))))) ∧
    (1 ≤ v.fsprec → v.fsprec ≤ 9 → v.nanoseconds.natAbs ≤ 999999999 →
      (padLeft v.fsprec (natDigits (v.nanoseconds.natAbs / 10 ^ (9 - v.fsprec)))).length
        = v.fsprec) := by
  constructor
  · have hfr : fracL v.fsprec (i32abs v.nanoseconds) =
        (if 1 ≤ v.fsprec ∧ v.fsprec ≤ 9 then
          '.' :: padLeft v.fsprec (natDigits (v.nanoseconds.natAbs / 10 ^ (9 - v.fsprec)))
         else []) := by
      rw [i32abs_eq hn]
      unfold fracL
      by_cases hc : 1 ≤ v.fsprec ∧ v.fsprec ≤ 9
      · rw [if_pos hc, if_pos hc]
        have hcast : ((10 : Int) ^ (9 - v.fsprec)) = ((10 ^ (9 - v.fsprec) : Nat) : Int) := by
          push_cast
          ring
        rw [hcast, tdiv_natCast, fmtI32_nonneg _ (by positivity), Int.toNat_natCast]
      · rw [if_neg hc, if_neg hc]
    rw [encode_eq, hfr]
  · intro h1 h9 hle
    rw [padLeft_length]
    have hpowsplit : (10 : Nat) ^ (9 - v.fsprec) * 10 ^ v.fsprec = 10 ^ 9 := by
      rw [← pow_add]
      congr 1
      omega
    have h9lit : (10 : Nat) ^ 9 = 1000000000 := by norm_num
    have hq : v.nanoseconds.natAbs / 10 ^ (9 - v.fsprec) < 10 ^ v.fsprec := by
      rw [Nat.div_lt_iff_lt_mul (by positivity), mul_comm, hpowsplit, h9lit]
      omega
    have := natDigits_length_le h1 hq
    omega

theorem C7_frac_field_witness :
    (-2147483648 < ((IntervalDS.new 0 0 0 0 123456789).and_prec 0 4).nanoseconds) ∧
    (((IntervalDS.new 0 0 0 0 123456789).and_prec 0 4).encode =
      (if isNeg ((IntervalDS.new 0 0 0 0 123456789).and_prec 0 4) then ['-'] else ['+'])
      ++ (fmtI32 (dayW ((IntervalDS.new 0 0 0 0 123456789).and_prec 0 4).lfprec)
            (i32abs ((IntervalDS.new 0 0 0 0 123456789).and_prec 0 4).days)
      ++ ' ' :: (fmtI32 2 (i32abs ((IntervalDS.new 0 0 0 0 123456789).and_prec 0 4).hours)
      ++ ':' :: (fmtI32 2 (i32abs ((IntervalDS.new 0 0 0 0 123456789).and_prec 0 4).minutes)
      ++ ':' :: (fmtI32 2 (i32abs ((IntervalDS.new 0 0 0 0 123456789).and_prec 0 4).seconds)
      ++ (if 1 ≤ ((IntervalDS.new 0 0 0 0 123456789).and_prec 0 4).fsprec ∧
              ((IntervalDS.new 0 0 0 0 123456789).and_prec 0 4).fsprec ≤ 9 then
            '.' :: padLeft ((IntervalDS.new 0 0 0 0 123456789).and_prec 0 4).fsprec
              (natDigits (((IntervalDS.new 0 0 0 0 123456789).and_prec 0 4).nanoseconds.natAbs /
                10 ^ (9 - ((IntervalDS.new 0 0 0 0 123456789).and_prec 0 4).fsprec)))
          else [])))))) ∧
    ((padLeft ((IntervalDS.new 0 0 0 0 123456789).and_prec 0 4).fsprec
        (natDigits (((IntervalDS.new 0 0 0 0 123456789).and_prec 0 4).nanoseconds.natAbs /
          10 ^ (9 - ((IntervalDS.new 0 0 0 0 123456789).and_prec 0 4).fsprec)))).length
      = ((IntervalDS.new 0 0 0 0 123456789).and_prec 0 4).fsprec) :=
  ⟨by decide, (C7_frac_field _ (by decide)).1,
   (C7_frac_field _ (by decide)).2 (by decide) (by decide) (by decide)⟩

/-- C8 counterexample: the decoder applies no upper clamp to the day digit
count, so decoding a 10-digit day field yields `lfprec = 10`, outside
`[0, 9]` — the claimed invariant fails on the Textual Decoder path. -/
theorem C8_counterexample :
    IntervalDS.fromStr "1234567890 02:03:04".data =
      some (Except.ok ⟨1234567890, 2, 3, 4, 0, 10, 0⟩) ∧
    ¬((10 : Nat) ≤ 9) := by
  exact ⟨by rfl, by decide⟩

/-- C8 (amended): `new` always sets precisions 9/9 ∈ [0,9]; `and_prec` and
the Native Record Adapter keep caller-supplied precisions in [0,9] when they
are supplied in [0,9] (they store them verbatim); the adapter defaults to
0/0 for non-interval descriptors; and every decoded value has
`fsprec ∈ [0,9]`, while its `lfprec` is in `[0,9]` whenever the literal's
day field has at most 9 digits (the counterexample shows longer day fields
escape the bound). -/
theorem C8_prec_bounds :
    (∀ d h m s n : Int,
      (IntervalDS.new d h m s n).lfprec ≤ 9 ∧ (IntervalDS.new d h m s n).fsprec ≤ 9) ∧
    (∀ (v : IntervalDS) (l f : Nat), l ≤ 9 → f ≤ 9 →
      (v.and_prec l f).lfprec ≤ 9 ∧ (v.and_prec l f).fsprec ≤ 9) ∧
    (∀ (it : dpiIntervalDS) (l f : Nat), l ≤ 9 → f ≤ 9 →
      (IntervalDS.from_dpi_interval_ds it (OracleType.IntervalDS l f)).lfprec ≤ 9 ∧
      (IntervalDS.from_dpi_interval_ds it (OracleType.IntervalDS l f)).fsprec ≤ 9) ∧
    (∀ it : dpiIntervalDS,
      (IntervalDS.from_dpi_interval_ds it OracleType.otherType).lfprec ≤ 9 ∧
      (IntervalDS.from_dpi_interval_ds it OracleType.otherType).fsprec ≤ 9) ∧
    (∀ (str : List Char) (v : IntervalDS), IntervalDS.fromStr str = some (Except.ok v) →
      v.fsprec ≤ 9 ∧
      (((dropSign str).2.takeWhile Char.isDigit).length ≤ 9 → v.lfprec ≤ 9)) := by
  refine ⟨fun d h m s n => ⟨le_refl 9, le_refl 9⟩,
    fun v l f hl hf => ⟨hl, hf⟩,
    fun it l f hl hf => ⟨hl, hf⟩,
    fun it => ⟨Nat.zero_le 9, Nat.zero_le 9⟩, ?_⟩
  intro str v hv
  unfold IntervalDS.fromStr at hv
  cases hf : fromStrO str with
  | panicked => rw [hf] at hv; exact Option.noConfusion hv
  | value o =>
    cases o with
    | none =>
      rw [hf] at hv
      injection hv with hv
      exact Except.noConfusion hv
    | some w =>
      rw [hf] at hv
      injection hv with hv
      injection hv with hv
      subst hv
      obtain ⟨h0, h1, h2⟩ := fromStrO_inv str w hf
      refine ⟨h1, fun hlen => ?_⟩
      rw [h2]
      have := Nat.mod_le (((dropSign str).2.takeWhile Char.isDigit).length) 256
      omega

theorem C8_prec_bounds_witness :
    ((2 : Nat) ≤ 9 ∧ (3 : Nat) ≤ 9 ∧
      (((dropSign "1 02:03:04".data).2.takeWhile Char.isDigit).length ≤ 9)) ∧
    (((IntervalDS.new 1 2 3 4 5).and_prec 2 3).lfprec ≤ 9 ∧
     ((IntervalDS.new 1 2 3 4 5).and_prec 2 3).fsprec ≤ 9) ∧
    ((IntervalDS.mk 1 2 3 4 0 1 0).fsprec ≤ 9 ∧ (IntervalDS.mk 1 2 3 4 0 1 0).lfprec ≤ 9) :=
  ⟨⟨by decide, by decide, by decide⟩,
   C8_prec_bounds.2.1 (IntervalDS.new 1 2 3 4 5) 2 3 (by decide) (by decide),
   ⟨(C8_prec_bounds.2.2.2.2 "1 02:03:04".data (IntervalDS.mk 1 2 3 4 0 1 0) (by rfl)).1,
    (C8_prec_bounds.2.2.2.2 "1 02:03:04".data (IntervalDS.mk 1 2 3 4 0 1 0) (by rfl)).2
      (by decide)⟩⟩

theorem C10_lenient_runs_witness :
    ("7".data ≠ ([] : List Char)) ∧
    IntervalDS.fromStr ("7".data ++ ' ' :: ("8".data ++ ':' :: ("9".data ++ ':' :: "5".data))) =
      some (Except.ok ⟨i32ofNat (digitsVal "7".data), i32ofNat (digitsVal "8".data),
        i32ofNat (digitsVal "9".data), i32ofNat (digitsVal "5".data), 0,
        "7".data.length % 256, 0⟩) :=
  ⟨by decide,
   C10_lenient_runs.2.2.2 "7".data "8".data "9".data "5".data
     (by decide) (by decide) (by decide) (by decide)
     (by decide) (by decide) (by decide) (by decide)⟩

end IntervalSpec
